import Mathlib

namespace ModNet

/-! Shallow embedding of the genetic-algorithm hyperparameter search in
MODNet (files modnet/hyper_opt/fit_genetic.py and modnet/fit_genetic.py).
Every random draw the Python code makes is passed to the embedded function
as an explicit argument, constrained where needed by the range of the
drawing call in the source. -/

/-- Model of Python random.randint a b, which draws a uniform integer from
the closed interval from a to b and raises ValueError (here: none) when b
is smaller than a, since randrange then has an empty range. The draw
argument selects the returned value. -/
def pyRandint (a b : ℤ) (draw : ℕ) : Option ℤ :=
  if a ≤ b then some (a + (draw : ℤ) % (b - a + 1)) else none

/-- The n_feat gene sampled by Individual.__init__ in
modnet/hyper_opt/fit_genetic.py, lines 40 to 48; count is the number of
optimal descriptors of the dataset. For counts of at least 2000 the source
uses np.sqrt; the integer square root stands in for it here, and that
branch never matters below since it needs count above 100 anyway. -/
def initNFeat (count : ℕ) (draw : ℕ) : Option ℤ :=
  if count ≤ 100 then
    (pyRandint 1 ((count : ℤ) / 2) draw).map (fun r => r + (count : ℤ) / 2)
  else if count < 2000 then
    (pyRandint 1 ((count : ℤ) / 10) draw).map (fun r => 10 * r)
  else
    (pyRandint 1 ((Nat.sqrt count : ℤ)) draw).map (fun r => r ^ 2)

/-- num_nested_folds coercion in function_fitness, lines 199 to 203 of
modnet/hyper_opt/fit_genetic.py. A Python int is truthy exactly when it is
nonzero. -/
def numNestedFolds (nested : ℤ) : ℤ :=
  let n : ℤ := if nested ≠ 0 then nested else 5
  if n ≤ 1 then 5 else n

/-- n_splits in function_fitness, lines 206 to 211: a falsy nested value
selects a single train/validation split instead of the k folds. -/
def nSplitsOf (nested : ℤ) : ℤ :=
  if nested = 0 then 1 else numNestedFolds nested

/-- The task list built by function_fitness, lines 216 to 228: one task per
individual index and fold index. -/
def ffTasks (popLen : ℕ) (nested : ℤ) : List (ℕ × ℕ) :=
  (List.range popLen).flatMap
    (fun i => (List.range (nSplitsOf nested).toNat).map (fun j => (i, j)))

/-- The 1e20 sentinel that initialises the val_losses table in
function_fitness, line 230 of modnet/hyper_opt/fit_genetic.py. -/
def sentinelLoss : ℚ := 10 ^ 20

/-- Key of a collected result: (individual_id, fold_id). -/
def resKey (r : ℕ × ℕ × Option ℚ) : ℕ × ℕ := (r.1, r.2.1)

/-- Result collection loop of the parallel function_fitness, lines 242 to
250. The loss table starts at the sentinel; each collected result
overwrites one slot. A task whose training raised has no loss (none); the
pool iterator re-raises that exception in the parent process, modelled as
Except.error, which leaves the loop and propagates out of function_fitness.
Results arrive in an arbitrary order (imap_unordered). -/
def collectLoop : List (ℕ × ℕ × Option ℚ) → ((ℕ × ℕ) → ℚ) → Except Unit ((ℕ × ℕ) → ℚ)
  | [], tbl => .ok tbl
  | r :: rs, tbl =>
    match r.2.2 with
    | none => .error ()
    | some l => collectLoop rs (fun p => if p = resKey r then l else tbl p)

/-- The full collection pass: sentinel-initialised table folded over the
arriving results. -/
def collectResults (results : List (ℕ × ℕ × Option ℚ)) : Except Unit ((ℕ × ℕ) → ℚ) :=
  collectLoop results (fun _ => sentinelLoss)

/-- Single-process fitness loop of modnet/fit_genetic.py, lines 201 to 223:
each try block either appends a loss record or the bare except swallows the
exception and appends nothing. A training outcome of none models the
exception. -/
def functionFitnessSP {G : Type} (pop : List G) (train : G → Option ℚ) : List (ℚ × G) :=
  pop.filterMap (fun w => (train w).map (fun f => (f, w)))

/-- Parent-selection weight in FitGenetic.run, line 291 of
modnet/hyper_opt/fit_genetic.py: 1 / l ** 10, computed directly on the
ranked mean loss. -/
def lossWeight (l : ℚ) : ℚ := 1 / l ^ 10

/-- The weight the spec describes: the loss is first replaced by the
sentinel when it is nonpositive, then inverted. This definition follows
the words of the spec, for comparison with lossWeight taken from source. -/
def lossWeightSpec (l : ℚ) : ℚ :=
  1 / (if l ≤ 0 then sentinelLoss else l) ^ 10

/-- Normalisation in run, line 293: every weight is divided by the sum. -/
def normalizeWeights (ws : List ℚ) : List ℚ := ws.map (fun w => w / ws.sum)

/-- Weights of a ranked loss vector, lines 291 to 293. -/
def selectionWeights (losses : List ℚ) : List ℚ :=
  normalizeWeights (losses.map lossWeight)

/-- The genes touched by Individual.mutation, with their types in the
source: n_feat and the first-layer neuron count are nonnegative ints,
fractions are rationals from fraction_list, initial_batch_size an int. The
categorical genes act, loss, xscale and lr are never mutated and are
omitted. -/
structure Genes where
  n_feat : ℕ
  n_neurons_first_layer : ℕ
  fraction1 : ℚ
  fraction2 : ℚ
  fraction3 : ℚ
  initial_batch_size : ℕ
deriving DecidableEq

/-- The random draws consumed by one call of Individual.mutation, lines 83
to 103 of modnet/hyper_opt/fit_genetic.py: the gating uniform draw, the
feature offset randint(-d, d) with d = int(0.1 * count), the neuron offset
randint(-2, 2), the fraction value of the fresh Individual, and the batch
exponent randint(-1, 1). -/
structure MutDraws where
  rand : ℚ
  dFeat : ℤ
  dNeur : ℤ
  freshFraction3 : ℚ
  batchExp : ℤ
deriving DecidableEq

/-- Body of Individual.mutation, lines 84 to 103. n_feat and the neuron
count go through np.absolute; a zero neuron count is remapped to 32. The
source writes i = random.choices([1, 2, 3]), a one-element list, so the
comparisons i == 1 and i == 2 are always false and the else branch always
replaces fraction3. The batch size is multiplied by 2 to the drawn
exponent, truncated to int. -/
def applyMutation (g : Genes) (d : MutDraws) : Genes :=
  let nf : ℕ := ((g.n_feat : ℤ) + d.dFeat).natAbs
  let nn0 : ℕ := ((g.n_neurons_first_layer : ℤ) + 32 * d.dNeur).natAbs
  let nn : ℕ := if nn0 = 0 then 32 else nn0
  let nb : ℕ :=
    if d.batchExp ≤ -1 then g.initial_batch_size / 2
    else if d.batchExp = 0 then g.initial_batch_size
    else g.initial_batch_size * 2
  { g with n_feat := nf, n_neurons_first_layer := nn,
           fraction3 := d.freshFraction3, initial_batch_size := nb }

/-- Individual.mutation, line 83: the body runs exactly when the uniform
draw exceeds prob_mut; otherwise the genes are left unchanged. -/
def mutation (g : Genes) (d : MutDraws) (probMut : ℚ) : Genes :=
  if probMut < d.rand then applyMutation g d else g

/-- Individual.crossover, lines 62 to 71 of modnet/hyper_opt/fit_genetic.py
(and FitGenetic.crossover, lines 155 to 157 of modnet/fit_genetic.py): the
genome has exactly 10 positions; gfm is the set of positions sampled
without replacement from range(10) with k = 5; the child takes position i
from the mother when i is in gfm and from the father otherwise. -/
def crossoverGenes {V : Type} (mother father : Fin 10 → V) (gfm : Finset (Fin 10)) :
    Fin 10 → V :=
  fun i => if i ∈ gfm then mother i else father i

/-- Stable insertion into a list sorted by the loss component. Python
guarantees sorted to be a stable sort; insertion sort is its executable
model here. Entries are (insertion index, loss). -/
def stableInsert (x : ℕ × ℚ) : List (ℕ × ℚ) → List (ℕ × ℚ)
  | [] => [x]
  | b :: l => if x.2 ≤ b.2 then x :: b :: l else b :: stableInsert x l

/-- Model of sorted(fitness, key first component) in gen_alg, line 252 of
modnet/fit_genetic.py. -/
def pySorted (l : List (ℕ × ℚ)) : List (ℕ × ℚ) := l.foldr stableInsert []

/-- Contract of np.argsort with the default quicksort kind (run, line 282
of modnet/hyper_opt/fit_genetic.py): p is some permutation of the index
range along which the values are nondecreasing. NumPy documents this kind
as not stable, so nothing more is guaranteed about the order of ties. -/
def ValidArgsort (v : List ℚ) (p : List ℕ) : Prop :=
  List.Perm p (List.range v.length) ∧
  (p.map (fun i => v.getD i 0)).Pairwise (· ≤ ·)

/-- Truncation selection in gen_alg, lines 267 to 272 of
modnet/fit_genetic.py: the merged pool is sorted by loss and cut to the
first size_pop records. -/
def genAlgNextGen (sizePop : ℕ) (merged : List (ℕ × ℚ)) : List (ℕ × ℚ) :=
  (pySorted merged).take sizePop

/-- The val_loss pool of FitGenetic.run, lines 281 and 305 of
modnet/hyper_opt/fit_genetic.py: generation 0 evaluates the initial
population, and every later generation concatenates the losses of its
children onto the whole previous pool. No truncation ever happens. -/
def runValLoss (gen0 : List ℚ) (child : ℕ → List ℚ) : ℕ → List ℚ
  | 0 => gen0
  | j + 1 => runValLoss gen0 child j ++ child (j + 1)

/-- The generation loop of FitGenetic.run, lines 287 to 317: j runs from 1
while j is below numGen; after the body of generation j, the loop breaks
when j is at least 2 and the best model of generation j - 2 is the best
model of generation j. The value returned is the index of the last
executed generation. bm gives the best model recorded at each executed
generation; fuel bounds the recursion. -/
def lastGenAux {M : Type} [DecidableEq M] (bm : ℕ → M) (numGen : ℕ) : ℕ → ℕ → ℕ
  | j, 0 => j - 1
  | j, fuel + 1 =>
    if j < numGen then
      if 2 ≤ j ∧ bm (j - 2) = bm j then j
      else lastGenAux bm numGen (j + 1) fuel
    else j - 1

/-- Index of the generation at which run stops. -/
def lastGen {M : Type} [DecidableEq M] (bm : ℕ → M) (numGen : ℕ) : ℕ :=
  lastGenAux bm numGen 1 numGen

/-- The model run returns: self.best_model of the last executed
generation. -/
def runBestModel {M : Type} [DecidableEq M] (bm : ℕ → M) (numGen : ℕ) : M :=
  bm (lastGen bm numGen)

/-- A concrete best-model-per-generation sequence: it changes at
generations 1 and 2 and is constant from generation 2 on, so generations
2, 3 and 4 share the same best model. -/
def demoBest : ℕ → ℕ := fun n => if n < 2 then n else 2

/-! Helper lemmas. -/

lemma stableInsert_perm (x : ℕ × ℚ) (l : List (ℕ × ℚ)) :
    List.Perm (stableInsert x l) (x :: l) := by
  induction l with
  | nil => exact List.Perm.refl _
  | cons b t ih =>
    by_cases h : x.2 ≤ b.2
    · simp only [stableInsert, if_pos h]
      exact List.Perm.refl _
    · simp only [stableInsert, if_neg h]
      exact (ih.cons b).trans (List.Perm.swap x b t)

lemma pySorted_perm (l : List (ℕ × ℚ)) : List.Perm (pySorted l) l := by
  induction l with
  | nil => exact List.Perm.refl _
  | cons x t ih =>
    show List.Perm (stableInsert x (pySorted t)) (x :: t)
    exact (stableInsert_perm x (pySorted t)).trans (ih.cons x)

lemma stableInsert_sorted (x : ℕ × ℚ) (l : List (ℕ × ℚ))
    (h : l.Pairwise (fun a b => a.2 ≤ b.2)) :
    (stableInsert x l).Pairwise (fun a b => a.2 ≤ b.2) := by
  induction l with
  | nil => simp [stableInsert]
  | cons b t ih =>
    obtain ⟨hb, ht⟩ := List.pairwise_cons.mp h
    by_cases hx : x.2 ≤ b.2
    · simp only [stableInsert, if_pos hx]
      refine List.pairwise_cons.mpr ⟨?_, h⟩
      intro y hy
      rcases List.mem_cons.mp hy with rfl | hy'
      · exact hx
      · exact le_trans hx (hb y hy')
    · simp only [stableInsert, if_neg hx]
      refine List.pairwise_cons.mpr ⟨?_, ih ht⟩
      intro y hy
      rcases List.mem_cons.mp ((stableInsert_perm x t).mem_iff.mp hy) with rfl | hy'
      · exact le_of_lt (not_le.mp hx)
      · exact hb y hy'

lemma stableInsert_stable (x : ℕ × ℚ) (l : List (ℕ × ℚ))
    (hidx : ∀ b ∈ l, x.1 < b.1)
    (h : l.Pairwise (fun a b => a.2 = b.2 → a.1 < b.1)) :
    (stableInsert x l).Pairwise (fun a b => a.2 = b.2 → a.1 < b.1) := by
  induction l with
  | nil => simp [stableInsert]
  | cons b t ih =>
    obtain ⟨hb, ht⟩ := List.pairwise_cons.mp h
    by_cases hx : x.2 ≤ b.2
    · simp only [stableInsert, if_pos hx]
      refine List.pairwise_cons.mpr ⟨?_, h⟩
      intro y hy _
      exact hidx y hy
    · simp only [stableInsert, if_neg hx]
      refine List.pairwise_cons.mpr
        ⟨?_, ih (fun c hc => hidx c (List.mem_cons_of_mem b hc)) ht⟩
      intro y hy
      rcases List.mem_cons.mp ((stableInsert_perm x t).mem_iff.mp hy) with rfl | hy'
      · intro he
        exact absurd he (ne_of_lt (not_le.mp hx))
      · exact hb y hy'

lemma pySorted_sorted (l : List (ℕ × ℚ)) :
    (pySorted l).Pairwise (fun a b => a.2 ≤ b.2) := by
  induction l with
  | nil => simp [pySorted]
  | cons x t ih => exact stableInsert_sorted x (pySorted t) ih

lemma pySorted_stable (l : List (ℕ × ℚ)) (hl : l.Pairwise (fun a b => a.1 < b.1)) :
    (pySorted l).Pairwise (fun a b => a.2 = b.2 → a.1 < b.1) := by
  induction l with
  | nil => simp [pySorted]
  | cons x t ih =>
    obtain ⟨hx, ht⟩ := List.pairwise_cons.mp hl
    exact stableInsert_stable x (pySorted t)
      (fun b hb => hx b ((pySorted_perm t).mem_iff.mp hb)) (ih ht)

lemma validArgsort_head (v : List ℚ) (p : List ℕ) (h : ValidArgsort v p)
    (m : ℕ) (hm : m < v.length)
    (hmin : ∀ k, k < v.length → k ≠ m → v.getD m 0 < v.getD k 0) :
    p.head? = some m := by
  obtain ⟨hperm, hsort⟩ := h
  have hmem : m ∈ p := hperm.mem_iff.mpr (List.mem_range.mpr hm)
  cases p with
  | nil => simp at hmem
  | cons q rest =>
    have hq : q < v.length :=
      List.mem_range.mp (hperm.mem_iff.mp (List.mem_cons_self q rest))
    by_cases hqm : q = m
    · simp [hqm]
    · exfalso
      rcases List.mem_cons.mp hmem with rfl | hmrest
      · exact hqm rfl
      · rw [List.map_cons] at hsort
        have hpair := List.pairwise_cons.mp hsort
        have hle : v.getD q 0 ≤ v.getD m 0 :=
          hpair.1 (v.getD m 0) (List.mem_map_of_mem _ hmrest)
        exact absurd hle (not_le.mpr (hmin q hq hqm))

lemma collectLoop_error (rs : List (ℕ × ℕ × Option ℚ)) :
    ∀ (tbl : (ℕ × ℕ) → ℚ) (r : ℕ × ℕ × Option ℚ), r ∈ rs → r.2.2 = none →
      collectLoop rs tbl = .error () := by
  induction rs with
  | nil => intro tbl r hr _; simp at hr
  | cons a t ih =>
    intro tbl r hr hf
    rcases List.mem_cons.mp hr with rfl | hmem
    · simp [collectLoop, hf]
    · cases ha : a.2.2 with
      | none => simp [collectLoop, ha]
      | some l =>
        simp only [collectLoop, ha]
        exact ih _ r hmem hf

lemma collectLoop_ok_of_all_some (rs : List (ℕ × ℕ × Option ℚ)) :
    ∀ tbl : (ℕ × ℕ) → ℚ, (∀ r ∈ rs, (r.2.2).isSome) →
      ∃ tbl', collectLoop rs tbl = .ok tbl' := by
  induction rs with
  | nil => intro tbl _; exact ⟨tbl, rfl⟩
  | cons a t ih =>
    intro tbl h
    cases ha : a.2.2 with
    | none =>
      have hh := h a (List.mem_cons_self a t)
      rw [ha] at hh
      simp at hh
    | some l =>
      simp only [collectLoop, ha]
      exact ih _ (fun r hr => h r (List.mem_cons_of_mem a hr))

lemma collectLoop_ok_not_mem (rs : List (ℕ × ℕ × Option ℚ)) :
    ∀ tbl tbl' : (ℕ × ℕ) → ℚ, collectLoop rs tbl = .ok tbl' →
      ∀ p : ℕ × ℕ, p ∉ rs.map resKey → tbl' p = tbl p := by
  induction rs with
  | nil =>
    intro tbl tbl' hok p _
    simp only [collectLoop, Except.ok.injEq] at hok
    rw [← hok]
  | cons a t ih =>
    intro tbl tbl' hok p hp
    cases ha : a.2.2 with
    | none => simp [collectLoop, ha] at hok
    | some l =>
      simp only [collectLoop, ha] at hok
      have hp1 : p ≠ resKey a := by
        intro he
        exact hp (he ▸ List.mem_cons_self (resKey a) (t.map resKey))
      have hp2 : p ∉ t.map resKey :=
        fun he => hp (List.mem_cons_of_mem (resKey a) he)
      have hh := ih _ tbl' hok p hp2
      rw [hh, if_neg hp1]

lemma collectLoop_ok_mem (rs : List (ℕ × ℕ × Option ℚ)) :
    ∀ tbl tbl' : (ℕ × ℕ) → ℚ, (rs.map resKey).Nodup →
      collectLoop rs tbl = .ok tbl' →
      ∀ (i j : ℕ) (l : ℚ), (i, j, some l) ∈ rs → tbl' (i, j) = l := by
  induction rs with
  | nil => intro tbl tbl' _ _ i j l hmem; simp at hmem
  | cons a t ih =>
    intro tbl tbl' hnd hok i j l hmem
    obtain ⟨hnd1, hnd2⟩ := List.nodup_cons.mp hnd
    rcases List.mem_cons.mp hmem with rfl | hmem'
    · have hok' : collectLoop t (fun p => if p = (i, j) then l else tbl p) = .ok tbl' := hok
      have hh := collectLoop_ok_not_mem t _ tbl' hok' (i, j) hnd1
      simpa using hh
    · cases ha : a.2.2 with
      | none => simp [collectLoop, ha] at hok
      | some l' =>
        simp only [collectLoop, ha] at hok
        exact ih _ tbl' hnd2 hok i j l hmem'

lemma sum_map_div (l : List ℚ) (s : ℚ) :
    (l.map (fun w => w / s)).sum = l.sum / s := by
  induction l with
  | nil => simp
  | cons a t ih => simp [ih, add_div]

lemma ffTasks_length (popLen : ℕ) (nested : ℤ) :
    (ffTasks popLen nested).length = popLen * (nSplitsOf nested).toNat := by
  induction popLen with
  | zero => simp [ffTasks]
  | succ n ih =>
    simp only [ffTasks, List.range_succ, List.flatMap_append, List.length_append] at *
    simp [ih]
    ring

/-! Claim theorems. -/

/-- C1 counterexample: in the parallel variant a single failed task makes
the collection loop re-raise the exception (the pool iterator propagates
it), even while another task has completed successfully, so the failure is
fatal to the Scheduler and reaches the controller. -/
theorem claim_C1_counterexample :
    collectResults [(0, 0, none), (1, 0, some 3)] = .error () := rfl

/-- C1 amended: an exception in a single task is non-fatal only in the
single-process variant, which swallows it and drops the fitness record; in
the parallel variant the collection loop re-raises the first failed task
and the exception propagates; the sentinel 1e20 is retained only in slots
that no collected result ever wrote, and when every task succeeds the
collection completes with each evaluated loss in its slot. -/
theorem claim_C1_amended {G : Type} (pop : List G) (train : G → Option ℚ) (w : G)
    (hfail : train w = none)
    (results : List (ℕ × ℕ × Option ℚ)) (hnd : (results.map resKey).Nodup)
    (i₀ j₀ : ℕ) :
    (∀ f : ℚ, (f, w) ∉ functionFitnessSP pop train) ∧
    (∀ q ∈ functionFitnessSP pop train, train q.2 = some q.1) ∧
    ((∀ r ∈ results, (r.2.2).isSome) →
      ∃ tbl, collectResults results = .ok tbl ∧
        (∀ i j lv, (i, j, some lv) ∈ results → tbl (i, j) = lv) ∧
        (∀ p, p ∉ results.map resKey → tbl p = sentinelLoss)) ∧
    ((i₀, j₀, (none : Option ℚ)) ∈ results → collectResults results = .error ()) := by
  refine ⟨?_, ?_, ?_, ?_⟩
  · intro f hf
    obtain ⟨a, ha, hae⟩ := List.mem_filterMap.mp hf
    obtain ⟨v, hv, hve⟩ := Option.map_eq_some'.mp hae
    have haw : a = w := congrArg Prod.snd hve
    rw [haw, hfail] at hv
    exact Option.noConfusion hv
  · intro q hq
    obtain ⟨a, ha, hae⟩ := List.mem_filterMap.mp hq
    obtain ⟨v, hv, hve⟩ := Option.map_eq_some'.mp hae
    rw [← hve]
    exact hv
  · intro hall
    obtain ⟨tbl, htbl⟩ := collectLoop_ok_of_all_some results (fun _ => sentinelLoss) hall
    refine ⟨tbl, htbl, ?_, ?_⟩
    · intro i j lv hmem
      exact collectLoop_ok_mem results _ tbl hnd htbl i j lv hmem
    · intro p hp
      exact collectLoop_ok_not_mem results _ tbl htbl p hp
  · intro hmem
    exact collectLoop_error results _ _ hmem rfl

/-- Witness for C1 amended at a concrete population and result list. -/
theorem claim_C1_witness :
    (∀ f : ℚ, (f, (7 : ℕ)) ∉ functionFitnessSP [7] (fun _ => (none : Option ℚ))) ∧
    collectResults [(0, 0, none)] = .error () :=
  ⟨(claim_C1_amended [7] (fun _ => none) 7 rfl [(0, 0, none)] (by decide) 0 0).1,
   (claim_C1_amended [7] (fun _ => none) 7 rfl [(0, 0, none)] (by decide) 0 0).2.2.2
     (by decide)⟩

/-- C2 counterexample: in the parallel variant the pool is never truncated.
With population size 2, after one breeding step the pool carried into the
next generation holds 4 loss records, not 2. -/
theorem claim_C2_counterexample :
    (runValLoss [1, 2] (fun _ => [3, 4]) 1).length = 4 ∧
    (runValLoss [1, 2] (fun _ => [3, 4]) 1).length ≠ 2 := by decide

/-- C2 amended: only the single-process variant truncates the merged
re-ranked pool to the top size_pop records, so its next generation has
exactly size_pop entries whenever the merged pool is at least that large;
the parallel variant re-ranks the merged pool but never truncates it, so
its pool at generation j holds (j + 1) * size_pop loss records. -/
theorem claim_C2_amended (sizePop : ℕ) (merged : List (ℕ × ℚ))
    (hle : sizePop ≤ merged.length)
    (gen0 : List ℚ) (child : ℕ → List ℚ) (h0 : gen0.length = sizePop)
    (hc : ∀ k, (child k).length = sizePop) (j : ℕ) :
    (genAlgNextGen sizePop merged).length = sizePop ∧
    (runValLoss gen0 child j).length = (j + 1) * sizePop := by
  constructor
  · unfold genAlgNextGen
    rw [List.length_take, (pySorted_perm merged).length_eq]
    omega
  · induction j with
    | zero => simpa using h0
    | succ n ih =>
      simp only [runValLoss, List.length_append, ih, hc]
      ring

/-- Witness for C2 amended at a concrete pool. -/
theorem claim_C2_witness :
    (genAlgNextGen 2 [(0, 5), (1, 3), (2, 4)]).length = 2 ∧
    (runValLoss [1, 2] (fun _ => [3, 4]) 3).length = (3 + 1) * 2 :=
  claim_C2_amended 2 [(0, 5), (1, 3), (2, 4)] (by decide) [1, 2]
    (fun _ => [3, 4]) rfl (fun _ => rfl) 3

/-- C3 counterexample: the code computes 1 / l ** 10 directly; no loss is
replaced by the sentinel first. At loss -1 the code weight is 1 while the
sentinel-replaced weight of the claim is not. -/
theorem claim_C3_counterexample :
    lossWeight (-1) = 1 ∧ lossWeight (-1) ≠ lossWeightSpec (-1) := by
  constructor
  · norm_num [lossWeight]
  · norm_num [lossWeight, lossWeightSpec, sentinelLoss]

/-- C3 amended: the weight is 1 / loss ** 10 with no replacement of
nonpositive losses; thanks to the even exponent a negative loss still gets
a positive weight, and for a loss vector of nonzero losses the normalised
weights sum to 1; a zero loss, however, puts a zero denominator under the
division (unguarded division by zero in the source). -/
theorem claim_C3_amended (l : ℚ) (hl : l < 0) (losses : List ℚ)
    (hne : losses ≠ []) (h0 : ∀ x ∈ losses, x ≠ 0) :
    0 < lossWeight l ∧ (selectionWeights losses).sum = 1 := by
  have hpos : ∀ x : ℚ, x ≠ 0 → 0 < lossWeight x := by
    intro x hx
    have h10 : (0 : ℚ) < x ^ 10 := by
      have hsq : x ^ 10 = (x ^ 5) ^ 2 := by ring
      rw [hsq]
      exact pow_two_pos_of_ne_zero (pow_ne_zero 5 hx)
    unfold lossWeight
    exact div_pos one_pos h10
  constructor
  · exact hpos l (ne_of_lt hl)
  · unfold selectionWeights normalizeWeights
    have hwpos : ∀ w ∈ losses.map lossWeight, 0 < w := by
      intro w hw
      obtain ⟨x, hx, rfl⟩ := List.mem_map.mp hw
      exact hpos x (h0 x hx)
    have hsum : 0 < (losses.map lossWeight).sum := by
      apply List.sum_pos _ hwpos
      simpa using hne
    rw [sum_map_div]
    exact div_self (ne_of_gt hsum)

/-- Witness for C3 amended at loss -2 and loss vector [-2, 3]. -/
theorem claim_C3_witness :
    0 < lossWeight (-2) ∧ (selectionWeights [-2, 3]).sum = 1 :=
  claim_C3_amended (-2) (by norm_num) [-2, 3] (by simp) (by norm_num)

/-- C4 counterexample: with 100 available features and draws inside the
ranges the source uses (the feature offset is drawn from -10 to 10 when
count is 100), mutation can push n_feat to 110, above the feature count,
and can push it to 0, below 1. -/
theorem claim_C4_counterexample :
    ((mutation ⟨100, 32, 1, 1, 1, 8⟩ ⟨1, 10, 0, 1, 0⟩ (1 / 2)).n_feat = 110 ∧
      100 < 110) ∧
    (mutation ⟨5, 32, 1, 1, 1, 8⟩ ⟨1, -5, 0, 1, 0⟩ (1 / 2)).n_feat = 0 ∧
    ((-10 : ℤ) ≤ 10 ∧ (10 : ℤ) ≤ 10 ∧ (-10 : ℤ) ≤ -5 ∧ (-5 : ℤ) ≤ 10) := by
  refine ⟨⟨?_, by norm_num⟩, ?_, by norm_num⟩
  · norm_num [mutation, applyMutation]
  · norm_num [mutation, applyMutation]

/-- C4 amended: mutation clamps by absolute value, so n_feat stays
nonnegative and, when the input n_feat is within the feature count and the
offset within the drawn range, stays at most count + count / 10; it can
however reach 0 and exceed the feature count by up to count / 10. The
first-layer neuron count after the mutation body is always positive (a
zero is remapped to 32), and mutation keeps it positive whenever the input
was positive. -/
theorem claim_C4_amended (count : ℕ) (g : Genes) (d : MutDraws) (p : ℚ)
    (hfeat : g.n_feat ≤ count)
    (hlo : -((count : ℤ) / 10) ≤ d.dFeat) (hhi : d.dFeat ≤ (count : ℤ) / 10) :
    0 < (applyMutation g d).n_neurons_first_layer ∧
    (0 < g.n_neurons_first_layer → 0 < (mutation g d p).n_neurons_first_layer) ∧
    (mutation g d p).n_feat ≤ count + count / 10 := by
  have hbody : 0 < (applyMutation g d).n_neurons_first_layer := by
    simp only [applyMutation]
    split <;> omega
  have hnf : (applyMutation g d).n_feat ≤ count + count / 10 := by
    simp only [applyMutation]
    omega
  refine ⟨hbody, ?_, ?_⟩
  · intro hg
    unfold mutation
    split
    · exact hbody
    · exact hg
  · unfold mutation
    split
    · exact hnf
    · omega

/-- Witness for C4 amended at a concrete genome and draw. -/
theorem claim_C4_witness :
    0 < (applyMutation ⟨60, 64, 1, 1, 1, 16⟩ ⟨1, 2, -1, 1, 0⟩).n_neurons_first_layer ∧
    (mutation ⟨60, 64, 1, 1, 1, 16⟩ ⟨1, 2, -1, 1, 0⟩ (1 / 2)).n_feat ≤ 80 + 80 / 10 :=
  ⟨(claim_C4_amended 80 ⟨60, 64, 1, 1, 1, 16⟩ ⟨1, 2, -1, 1, 0⟩ (1 / 2)
      (by decide) (by decide) (by decide)).1,
   (claim_C4_amended 80 ⟨60, 64, 1, 1, 1, 16⟩ ⟨1, 2, -1, 1, 0⟩ (1 / 2)
      (by decide) (by decide) (by decide)).2.2⟩

/-- C5: the early-stopping rule of run, lines 314 to 317. If the recorded
best model is the same at three consecutive executed generations j - 2,
j - 1 and j, and no earlier generation already satisfied the break test
(so the loop indeed reaches generation j), then the loop breaks at
generation j, before the budget numGen is exhausted, and run returns the
model of generation j. -/
theorem claim_C5_early_stopping {M : Type} [DecidableEq M] (bm : ℕ → M)
    (numGen j : ℕ) (h2 : 2 ≤ j) (hj : j < numGen)
    (ha : bm (j - 2) = bm (j - 1)) (hb : bm (j - 1) = bm j)
    (hfirst : ∀ k, 2 ≤ k → k < j → bm (k - 2) ≠ bm k) :
    lastGen bm numGen = j ∧ runBestModel bm numGen = bm j := by
  have key : ∀ fuel i, i ≤ j → j < i + fuel → lastGenAux bm numGen i fuel = j := by
    intro fuel
    induction fuel with
    | zero => intro i h1 h2'; omega
    | succ fuel ih =>
      intro i h1 hlt
      have hiN : i < numGen := lt_of_le_of_lt h1 hj
      rcases eq_or_lt_of_le h1 with rfl | hij
      · have hcond : 2 ≤ i ∧ bm (i - 2) = bm i := ⟨h2, ha.trans hb⟩
        simp [lastGenAux, hiN, hcond]
      · have hcond : ¬(2 ≤ i ∧ bm (i - 2) = bm i) := by
          rintro ⟨hi2, he⟩
          exact hfirst i hi2 hij he
        simp only [lastGenAux, if_pos hiN, if_neg hcond]
        exact ih (i + 1) hij (by omega)
  have h := key numGen 1 (by omega) (by omega)
  exact ⟨h, by simp [runBestModel, lastGen, h]⟩

/-- Witness for C5 at the concrete sequence demoBest with budget 10: the
best model is the same at generations 2, 3 and 4, so the loop stops at
generation 4. -/
theorem claim_C5_witness :
    lastGen demoBest 10 = 4 ∧ runBestModel demoBest 10 = demoBest 4 :=
  claim_C5_early_stopping demoBest 10 4 (by norm_num) (by norm_num)
    (by decide) (by decide)
    (by
      intro k hk2 hk4
      interval_cases k <;> decide)

/-- C6: crossover takes the 5 sampled positions from the first parent, the
other 5 from the second, the genome keeps exactly 10 positions, and every
child value is one of the parent values at the same position. -/
theorem claim_C6_crossover {V : Type} (a b : Fin 10 → V) (gfm : Finset (Fin 10))
    (h5 : gfm.card = 5) :
    (∀ i, i ∈ gfm → crossoverGenes a b gfm i = a i) ∧
    (∀ i, i ∉ gfm → crossoverGenes a b gfm i = b i) ∧
    gfmᶜ.card = 5 ∧ Fintype.card (Fin 10) = 10 ∧
    (∀ i, crossoverGenes a b gfm i = a i ∨ crossoverGenes a b gfm i = b i) := by
  refine ⟨?_, ?_, ?_, rfl, ?_⟩
  · intro i hi; simp [crossoverGenes, hi]
  · intro i hi; simp [crossoverGenes, hi]
  · simp [Finset.card_compl, h5]
  · intro i
    by_cases hi : i ∈ gfm <;> simp [crossoverGenes, hi]

/-- Witness for C6 at concrete parents and sampled index set. -/
theorem claim_C6_witness :
    crossoverGenes (fun i => (i : ℕ)) (fun i => 100 + (i : ℕ))
      ({0, 1, 2, 3, 4} : Finset (Fin 10)) 2 = 2 ∧
    crossoverGenes (fun i => (i : ℕ)) (fun i => 100 + (i : ℕ))
      ({0, 1, 2, 3, 4} : Finset (Fin 10)) 7 = 107 :=
  ⟨(claim_C6_crossover _ _ _ (by decide)).1 2 (by decide),
   (claim_C6_crossover _ _ _ (by decide)).2.1 7 (by decide)⟩

/-- C7: the mutation body runs exactly when the uniform draw exceeds
prob_mut, so the set of triggering draws inside the unit interval is the
interval from prob_mut (exclusive) to 1, of length 1 - prob_mut, and a
larger prob_mut can only shrink the set of triggering draws: the inverted
convention of the source. -/
theorem claim_C7_mutation_gate (g : Genes) (d : MutDraws) (p p' : ℚ)
    (hp0 : 0 ≤ p) (hpp' : p ≤ p') :
    (p < d.rand → mutation g d p = applyMutation g d) ∧
    (d.rand ≤ p → mutation g d p = g) ∧
    {x : ℚ | x ∈ Set.Icc (0 : ℚ) 1 ∧ p < x} = Set.Ioc p 1 ∧
    {x : ℚ | p' < x} ⊆ {x : ℚ | p < x} := by
  refine ⟨?_, ?_, ?_, ?_⟩
  · intro h; simp [mutation, h]
  · intro h; simp [mutation, not_lt.mpr h]
  · ext x
    simp only [Set.mem_setOf_eq, Set.mem_Icc, Set.mem_Ioc]
    constructor
    · rintro ⟨⟨_, hx1⟩, hpx⟩
      exact ⟨hpx, hx1⟩
    · rintro ⟨hpx, hx1⟩
      exact ⟨⟨le_trans hp0 (le_of_lt hpx), hx1⟩, hpx⟩
  · intro x hx
    exact lt_of_le_of_lt hpp' hx

/-- Witness for C7 at concrete draws: a draw of 3/4 above prob_mut 1/2
mutates, a draw of 1/4 below it leaves the genes unchanged. -/
theorem claim_C7_witness :
    mutation ⟨60, 64, 1, 1, 1, 16⟩ ⟨3 / 4, 2, 1, 1 / 2, 1⟩ (1 / 2) =
      applyMutation ⟨60, 64, 1, 1, 1, 16⟩ ⟨3 / 4, 2, 1, 1 / 2, 1⟩ ∧
    mutation ⟨60, 64, 1, 1, 1, 16⟩ ⟨1 / 4, 2, 1, 1 / 2, 1⟩ (1 / 2) =
      ⟨60, 64, 1, 1, 1, 16⟩ :=
  ⟨(claim_C7_mutation_gate _ _ (1 / 2) (1 / 2) (by norm_num) le_rfl).1 (by norm_num),
   (claim_C7_mutation_gate _ _ (1 / 2) (1 / 2) (by norm_num) le_rfl).2.1 (by norm_num)⟩

/-- C8 counterexample: the parallel variant ranks with np.argsort, whose
default quicksort kind guarantees only a sorted permutation. For the loss
vector [5, 5] the permutation [1, 0] satisfies that contract yet reverses
the insertion order of the tied candidates, so tie stability is not
guaranteed by the code. -/
theorem claim_C8_counterexample :
    ValidArgsort [5, 5] [1, 0] ∧ ([1, 0] : List ℕ) ≠ [0, 1] := by
  refine ⟨⟨?_, ?_⟩, by decide⟩
  · show List.Perm [1, 0] (List.range 2)
    have h2 : List.range 2 = [0, 1] := rfl
    rw [h2]
    exact List.Perm.swap 0 1 []
  · norm_num [List.pairwise_cons]

/-- C8 amended: the single-process variant sorts with the stable Python
sorted, so its ranking is ascending by loss with ties in insertion order;
the parallel variant ranks by np.argsort, which guarantees an ascending
permutation (and in particular places a strictly lowest-loss candidate
first) but not tie stability. -/
theorem claim_C8_amended (entries : List (ℕ × ℚ))
    (hidx : entries.Pairwise (fun a b => a.1 < b.1))
    (v : List ℚ) (p : List ℕ) (hp : ValidArgsort v p) (m : ℕ) (hm : m < v.length)
    (hmin : ∀ k, k < v.length → k ≠ m → v.getD m 0 < v.getD k 0) :
    List.Perm (pySorted entries) entries ∧
    (pySorted entries).Pairwise (fun a b => a.2 ≤ b.2) ∧
    (pySorted entries).Pairwise (fun a b => a.2 = b.2 → a.1 < b.1) ∧
    p.head? = some m :=
  ⟨pySorted_perm entries, pySorted_sorted entries, pySorted_stable entries hidx,
   validArgsort_head v p hp m hm hmin⟩

/-- Witness for C8 amended at concrete entries and argsort output. -/
theorem claim_C8_witness :
    List.Perm (pySorted [(0, 5), (1, 5)]) [(0, 5), (1, 5)] ∧
    (pySorted [(0, 5), (1, 5)]).Pairwise (fun a b => a.2 ≤ b.2) ∧
    (pySorted [(0, 5), (1, 5)]).Pairwise (fun a b => a.2 = b.2 → a.1 < b.1) ∧
    ([0, 1] : List ℕ).head? = some 0 :=
  claim_C8_amended [(0, 5), (1, 5)] (by simp) [3, 7] [0, 1]
    ⟨by simp [List.range_succ], by norm_num [List.pairwise_cons]⟩ 0 (by norm_num)
    (by
      intro k hk hkm
      simp at hk
      interval_cases k
      · exact absurd rfl hkm
      · norm_num)

/-- C9 counterexample: a supplied fold count of 0 is falsy, so the source
builds a single train/validation split: 3 individuals give 3 tasks, not
3 * 5 as the claim requires for a supplied value at most 1. -/
theorem claim_C9_counterexample :
    nSplitsOf 0 = 1 ∧ (ffTasks 3 0).length = 3 ∧ (ffTasks 3 0).length ≠ 3 * 5 := by
  decide

/-- C9 amended: the task count is always the population size times the
fold count F actually used, where F is the supplied value when it is at
least 2, F is 5 when the supplied value is at most 1 but nonzero (the
truthy case coerced to the default), and F is 1 when the supplied value is
0 (falsy: a single train/validation split). -/
theorem claim_C9_amended (popLen : ℕ) (nested : ℤ) :
    (2 ≤ nested → (ffTasks popLen nested).length = popLen * nested.toNat) ∧
    (nested ≤ 1 → nested ≠ 0 → (ffTasks popLen nested).length = popLen * 5) ∧
    (nested = 0 → (ffTasks popLen nested).length = popLen * 1) := by
  refine ⟨?_, ?_, ?_⟩
  · intro h
    rw [ffTasks_length]
    have hs : nSplitsOf nested = nested := by
      simp only [nSplitsOf, numNestedFolds]
      split_ifs <;> omega
    rw [hs]
  · intro h1 h2
    rw [ffTasks_length]
    have hs : nSplitsOf nested = 5 := by
      simp only [nSplitsOf, numNestedFolds]
      split_ifs <;> omega
    rw [hs]
    rfl
  · intro h
    rw [ffTasks_length, h]
    rfl

/-- Witness for C9 amended at fold counts 7, 1 and 0 with population 3. -/
theorem claim_C9_witness :
    (ffTasks 3 7).length = 3 * (7 : ℤ).toNat ∧
    (ffTasks 3 1).length = 3 * 5 ∧
    (ffTasks 3 0).length = 3 * 1 :=
  ⟨(claim_C9_amended 3 7).1 (by decide),
   (claim_C9_amended 3 1).2.1 (by decide) (by decide),
   (claim_C9_amended 3 0).2.2 rfl⟩

/-- C10: genome creation is not total. With fewer than 2 optimal
descriptors the small-feature branch calls randint with upper bound 0,
which raises, so the n_feat sampling of Individual.__init__ succeeds only
when at least 2 descriptors are available. -/
theorem claim_C10_init_not_total (count draw : ℕ) :
    (count < 2 → initNFeat count draw = none) ∧
    (∀ r : ℤ, initNFeat count draw = some r → 2 ≤ count) := by
  constructor
  · intro h
    interval_cases count <;> simp [initNFeat, pyRandint]
  · intro r hr
    by_contra hc
    push_neg at hc
    interval_cases count <;> simp [initNFeat, pyRandint] at hr

/-- Witness for C10 at one optimal descriptor: creation raises. -/
theorem claim_C10_witness : initNFeat 1 7 = none :=
  (claim_C10_init_not_total 1 7).1 (by decide)

end ModNet
